import Mathlib

/-!
Verification of the `holma` micro-templating engine (src/index.ts).

The embedding models JavaScript runtime values with the inductive `Value`
(with a distinguished `vabsent` for JS `undefined`, the absent marker, kept
distinct from `vnull`).  Strings are processed as `List Char`.  The two
regex-based replacement passes of the source
(`/{{(\d+|[a-z$_][\w\-$]*(?:\.[\w\-$]*)*)}}/gi` and its single-brace
variant, applied via `String.prototype.replace` with a function replacer)
are modelled by explicit left-to-right scanners.  For these particular
regexes the backtracking regex engine is deterministic: the character
classes of the key token never contain `}` or the leading `{`, so a match
attempt at a position either succeeds by consuming the maximal key run
followed by the closing brace(s), or fails, and the engine then retries at
the next character — which is exactly what the scanners below do.
Fallible code (`throw`) is modelled with `Except`.
-/

/-- JavaScript runtime values, as far as the engine observes them.
`vabsent` is the absent/undefined marker; `vnull` is an explicit null.
Numbers are restricted to integers (the repository only exercises
integral numbers). -/
inductive Value where
  | vstr (s : String)
  | vnum (n : Int)
  | vbool (b : Bool)
  | vnull
  | vabsent
  | vobj (fields : List (String × Value))
  | varr (elems : List Value)

/-- `v === undefined` (tag check, as in `transformed === undefined`). -/
def Value.isAbsent : Value → Bool
  | .vabsent => true
  | _ => false

/-- `v == null` in JS: true exactly for `null` and `undefined`. -/
def Value.isNullish : Value → Bool
  | .vnull => true
  | .vabsent => true
  | _ => false

/-- `typeof v === 'string'`. -/
def Value.isStr : Value → Bool
  | .vstr _ => true
  | _ => false

/-- `v === null` (tag check). -/
def Value.isNull : Value → Bool
  | .vnull => true
  | _ => false

/-- JS `typeof` as the engine observes it (used by the template type check). -/
def jsTypeof : Value → String
  | .vstr _ => "string"
  | .vnum _ => "number"
  | .vbool _ => "boolean"
  | .vnull => "object"
  | .vabsent => "undefined"
  | .vobj _ => "object"
  | .varr _ => "object"

/-- A validation issue, per the standard-schema contract:
at minimum a message and a path. -/
structure Issue where
  message : String
  path : List String
deriving DecidableEq, Repr

/-- Result of the pluggable validator: either a validated value or an
ordered issue list. -/
inductive ValidationResult where
  | value (v : Value)
  | issues (l : List Issue)

/-- The three error kinds the render call can surface:
`TypeError` on a non-string template (carrying `typeof` of the argument),
`SchemaError` carrying the validator's issue list, and
`MissingValueError` carrying the offending key. -/
inductive RenderError where
  | typeMismatch (got : String)
  | schemaValidation (issues : List Issue)
  | missingValue (key : String)
deriving DecidableEq, Repr

/-- Per-call options (`HolmaOptions`): `ignoreMissing` and the optional
`transform` hook, which receives the resolved value and the key. -/
structure Options where
  ignoreMissing : Bool
  transform : Option (Value → String → Value)

/-- `path.split('.')` on character lists: JS `"".split('.') = [""]`,
`"a.".split('.') = ["a",""]`, etc. -/
def splitDot : List Char → List (List Char)
  | [] => [[]]
  | c :: cs =>
    if c = '.' then [] :: splitDot cs
    else
      match splitDot cs with
      | s :: ss => (c :: s) :: ss
      | [] => [[c]]

/-- Own-property lookup on an object: missing field yields `undefined`. -/
def lookupFields : List (String × Value) → String → Value
  | [], _ => .vabsent
  | (k, v) :: rest, part => if k = part then v else lookupFields rest part

/-- Property access on a JS array value: canonical numeric indices and
`length`; anything else is `undefined`. -/
def arrIndex (elems : List Value) (part : String) : Value :=
  if part = "length" then .vnum elems.length
  else
    match part.toNat? with
    | some n =>
      if toString n = part then
        match elems.get? n with
        | some v => v
        | none => .vabsent
      else .vabsent
    | none => .vabsent

/-- The loop body of `getNestedValue`: walk the split path segment by
segment; `value == null` yields `undefined`; non-objects yield
`undefined`; objects/arrays are descended into. -/
def NestedGo : Value → List String → Value
  | v, [] => v
  | v, p :: ps =>
    if v.isNullish then .vabsent
    else
      match v with
      | .vobj fields => NestedGo (lookupFields fields p) ps
      | .varr elems => NestedGo (arrIndex elems p) ps
      | _ => .vabsent

/-- `getNestedValue(obj, path)` from the source: split the path on `.`
and walk the segments. -/
def getNestedValue (obj : Value) (path : String) : Value :=
  NestedGo obj ((splitDot path.toList).map String.mk)

mutual
/-- JS `String(v)` stringification: strings unchanged, `null`/booleans
and integers via their canonical text, plain objects as
`[object Object]`, arrays as `join(',')` where null/undefined elements
become the empty string. -/
def jsString : Value → String
  | .vstr s => s
  | .vnum n => toString n
  | .vbool b => if b then "true" else "false"
  | .vnull => "null"
  | .vabsent => "undefined"
  | .vobj _ => "[object Object]"
  | .varr es => String.intercalate "," (jsStringList es)

/-- Elementwise stringification used by `Array.prototype.join`. -/
def jsStringList : List Value → List String
  | [] => []
  | v :: vs => (if v.isNullish then "" else jsString v) :: jsStringList vs
end

/-- One character of `htmlEscape` from `escape-goat`: the five
HTML-significant characters map to entities, everything else to itself.
(The source applies five sequential global replaces, `&` first; since no
later replacement introduces a character handled by a later pass, this is
extensionally the per-character map.) -/
def escapeChar (c : Char) : List Char :=
  if c = '&' then "&amp;".toList
  else if c = '"' then "&quot;".toList
  else if c = '\'' then "&#39;".toList
  else if c = '<' then "&lt;".toList
  else if c = '>' then "&gt;".toList
  else [c]

/-- `htmlEscape(s)` from `escape-goat`. -/
def htmlEscape (s : String) : String :=
  String.mk (s.toList.flatMap escapeChar)

/-- The value after the optional transform hook:
`options.transform ? options.transform({value, key}) : value`. -/
def transformedValue (d : Value) (o : Options) (key : String) : Value :=
  match o.transform with
  | some f => f (getNestedValue d key) key
  | none => getNestedValue d key

/-- The `replace` closure from `holma`: resolve, transform, and either
pass the placeholder through (`ignoreMissing`), fail with
`MissingValueError`, or stringify. -/
def replace (d : Value) (o : Options) (placeholder : String) (key : String) :
    Except RenderError String :=
  let value := getNestedValue d key
  let transformed :=
    match o.transform with
    | some f => f value key
    | none => value
  if transformed.isAbsent then
    if o.ignoreMissing then .ok placeholder else .error (.missingValue key)
  else .ok (jsString transformed)

/-- `withEscape`: run the replacer, then HTML-escape its result
(errors propagate unescaped). -/
def withEscape (fn : String → String → Except RenderError String)
    (placeholder : String) (key : String) : Except RenderError String :=
  (fn placeholder key).map htmlEscape

/-- First character of a key: `\d` or `[a-z$_]` under the `i` flag. -/
def isIdentStart (c : Char) : Bool :=
  c.isAlpha || c = '$' || c = '_'

/-- A character of `[\w\-$]` (the `i` flag makes `\w` cover both cases;
`\w` is `[A-Za-z0-9_]`). -/
def isIdentTail (c : Char) : Bool :=
  c.isAlphanum || c = '_' || c = '-' || c = '$'

/-- A character that can continue the key token after its first
character: `[\w\-$]` or the `.` separating segments. -/
def isKeyTail (c : Char) : Bool :=
  isIdentTail c || c = '.'

/-- Match the key token `(\d+|[a-z$_][\w\-$]*(?:\.[\w\-$]*)*)` (with the
`i` flag) at the head of the input, returning the matched key and the
remaining characters.  As explained in the header, greedy matching of
this token is deterministic: a digit-led key is the maximal digit run, an
identifier-led key is the first character followed by the maximal run
over `[\w\-$.]` (segments after a dot may be empty). -/
def matchKey : List Char → Option (List Char × List Char)
  | [] => none
  | c :: cs =>
    if c.isDigit then some (c :: cs.takeWhile Char.isDigit, cs.dropWhile Char.isDigit)
    else if isIdentStart c then
      some (c :: cs.takeWhile isKeyTail, cs.dropWhile isKeyTail)
    else none

/-- Attempt to match a single-brace placeholder `{key}` at the head. -/
def trySingle : List Char → Option (List Char × List Char)
  | [] => none
  | c :: cs =>
    if c = '{' then
      match matchKey cs with
      | some (k, '}' :: rest) => some (k, rest)
      | _ => none
    else none

/-- Attempt to match a double-brace placeholder `{{key}}` at the head. -/
def tryDouble : List Char → Option (List Char × List Char)
  | c1 :: c2 :: cs =>
    if c1 = '{' then
      if c2 = '{' then
        match matchKey cs with
        | some (k, '}' :: '}' :: rest) => some (k, rest)
        | _ => none
      else none
    else none
  | _ => none

/-- `regex.test(s)`: does a match start at some position? -/
def hasMatch (tryM : List Char → Option (List Char × List Char)) :
    List Char → Bool
  | [] => false
  | c :: cs => (tryM (c :: cs)).isSome || hasMatch tryM cs

/-- `doubleBraces.test(result)` from the source. -/
def hasDouble (cs : List Char) : Bool := hasMatch tryDouble cs

/-- `singleBraces.test` (used in statements about the no-match case). -/
def hasSingle (cs : List Char) : Bool := hasMatch trySingle cs

/-- Fuelled model of `String.prototype.replace(regex, replacer)`: walk the
input; where a match starts, feed the matched text and key to the
replacer, emit its result literally, and continue scanning after the
match (never inside the emitted replacement); otherwise copy one
character.  The replacer may throw.  Fuel only serves Lean's structural
recursion; `fuel ≥ length` makes it irrelevant (`scanF_fuel`). -/
def scanF (tryM : List Char → Option (List Char × List Char))
    (mkPh : List Char → String)
    (repl : String → String → Except RenderError String) :
    Nat → List Char → Except RenderError (List Char)
  | _, [] => .ok []
  | 0, _ :: _ => .ok []
  | fuel + 1, c :: cs =>
    match tryM (c :: cs) with
    | some (k, rest) =>
      match repl (mkPh k) (String.mk k) with
      | .error e => .error e
      | .ok v => (scanF tryM mkPh repl fuel rest).map (fun tail => v.toList ++ tail)
    | none => (scanF tryM mkPh repl fuel cs).map (fun tail => c :: tail)

/-- The keys a pass would feed to its replacer, in scan order
(same traversal as `scanF`, replacement ignored). -/
def keysF (tryM : List Char → Option (List Char × List Char)) :
    Nat → List Char → List String
  | _, [] => []
  | 0, _ :: _ => []
  | fuel + 1, c :: cs =>
    match tryM (c :: cs) with
    | some (k, rest) => String.mk k :: keysF tryM fuel rest
    | none => keysF tryM fuel cs

/-- The single-brace placeholder text for a key. -/
def mkPh1 (k : List Char) : String := String.mk ('{' :: (k ++ ['}']))

/-- The double-brace placeholder text for a key. -/
def mkPh2 (k : List Char) : String :=
  String.mk ('{' :: '{' :: (k ++ ['}', '}']))

/-- `result.replace(singleBraces, repl)`. -/
def scanSingle (repl : String → String → Except RenderError String)
    (cs : List Char) : Except RenderError (List Char) :=
  scanF trySingle mkPh1 repl cs.length cs

/-- `result.replace(doubleBraces, repl)`. -/
def scanDouble (repl : String → String → Except RenderError String)
    (cs : List Char) : Except RenderError (List Char) :=
  scanF tryDouble mkPh2 repl cs.length cs

/-- Keys of the single-brace pass over a string, in scan order. -/
def keysOfSingle (cs : List Char) : List String :=
  keysF trySingle cs.length cs

/-- Keys of the double-brace pass over a string, in scan order. -/
def keysOfDouble (cs : List Char) : List String :=
  keysF tryDouble cs.length cs

/-- The substitution part of `holma`, run on the validated data: the
escaped (double-brace) pass — guarded by `doubleBraces.test` — followed
by the raw (single-brace) pass on its output. -/
def render (template : String) (safeData : Value) (o : Options) :
    Except RenderError String :=
  let cs := template.toList
  let step1 : Except RenderError (List Char) :=
    if hasDouble cs then scanDouble (withEscape (replace safeData o)) cs
    else .ok cs
  match step1 with
  | .error e => .error e
  | .ok mid =>
    match scanSingle (replace safeData o) mid with
    | .error e => .error e
    | .ok out => .ok (String.mk out)

/-- The `holma` entry point: template type check first, then the
validator (`validateSchema` throws `SchemaError` on an issues result),
then the two substitution passes.  The raw template argument is a
`Value` so the runtime `typeof` check is observable; the possibly-async
validator is modelled by its awaited result. -/
def holma (templateArg : Value) (schema : Value → ValidationResult)
    (data : Value) (o : Options) : Except RenderError String :=
  match templateArg with
  | .vstr template =>
    match schema data with
    | .issues l => .error (.schemaValidation l)
    | .value safeData => render template safeData o
  | other => .error (.typeMismatch (jsTypeof other))

/-! ### Basic facts about the matchers -/

theorem length_dropWhile_le (p : Char → Bool) (l : List Char) :
    (l.dropWhile p).length ≤ l.length :=
  (List.dropWhile_suffix p).length_le

theorem matchKey_rest {cs k rest : List Char} (h : matchKey cs = some (k, rest)) :
    rest.length < cs.length := by
  match cs with
  | [] => simp [matchKey] at h
  | c :: cs' =>
    simp only [matchKey] at h
    split at h
    · simp only [Option.some.injEq, Prod.mk.injEq] at h
      obtain ⟨hk, hrest⟩ := h
      subst hrest
      exact Nat.lt_succ_of_le (length_dropWhile_le _ _)
    · split at h
      · simp only [Option.some.injEq, Prod.mk.injEq] at h
        obtain ⟨hk, hrest⟩ := h
        subst hrest
        exact Nat.lt_succ_of_le (length_dropWhile_le _ _)
      · simp at h

theorem trySingle_shrink {cs k rest : List Char}
    (h : trySingle cs = some (k, rest)) : rest.length < cs.length := by
  match cs with
  | [] => simp [trySingle] at h
  | c :: cs' =>
    simp only [trySingle] at h
    split at h
    · split at h
      · rename_i k' rest' heq
        simp only [Option.some.injEq, Prod.mk.injEq] at h
        obtain ⟨hk, hrest⟩ := h
        subst hrest
        have := matchKey_rest heq
        simp only [List.length_cons] at this ⊢
        omega
      · simp at h
    · simp at h

theorem tryDouble_shrink {cs k rest : List Char}
    (h : tryDouble cs = some (k, rest)) : rest.length < cs.length := by
  match cs with
  | [] => simp [tryDouble] at h
  | [c] => simp [tryDouble] at h
  | c1 :: c2 :: cs' =>
    simp only [tryDouble] at h
    split at h
    · split at h
      · split at h
        · rename_i k' rest' heq
          simp only [Option.some.injEq, Prod.mk.injEq] at h
          obtain ⟨hk, hrest⟩ := h
          subst hrest
          have := matchKey_rest heq
          simp only [List.length_cons] at this ⊢
          omega
        · simp at h
      · simp at h
    · simp at h

theorem trySingle_not_lbrace {c : Char} {cs : List Char} (h : c ≠ '{') :
    trySingle (c :: cs) = none := by
  simp [trySingle, h]

theorem tryDouble_not_lbrace {c : Char} {cs : List Char} (h : c ≠ '{') :
    tryDouble (c :: cs) = none := by
  match cs with
  | [] => simp [tryDouble]
  | c2 :: cs' => simp [tryDouble, h]

theorem hasMatch_false_head {tryM} {c : Char} {cs : List Char}
    (h : hasMatch tryM (c :: cs) = false) :
    tryM (c :: cs) = none ∧ hasMatch tryM cs = false := by
  simp only [hasMatch, Bool.or_eq_false_iff] at h
  obtain ⟨h1, h2⟩ := h
  refine ⟨?_, h2⟩
  cases htry : tryM (c :: cs) with
  | none => rfl
  | some pr => rw [htry] at h1; simp at h1

/-! ### Fuel irrelevance and unfolding equations for the scanners -/

theorem scanF_fuel {tryM : List Char → Option (List Char × List Char)}
    (hm : ∀ {cs k rest}, tryM cs = some (k, rest) → rest.length < cs.length)
    (mkPh : List Char → String)
    (repl : String → String → Except RenderError String) :
    ∀ (f₁ f₂ : Nat) (cs : List Char), cs.length ≤ f₁ → cs.length ≤ f₂ →
      scanF tryM mkPh repl f₁ cs = scanF tryM mkPh repl f₂ cs := by
  intro f₁
  induction f₁ with
  | zero =>
    intro f₂ cs h₁ h₂
    match cs with
    | [] => cases f₂ <;> rfl
    | c :: cs' => simp at h₁
  | succ f ih =>
    intro f₂ cs h₁ h₂
    match cs with
    | [] => cases f₂ <;> rfl
    | c :: cs' =>
      match f₂ with
      | 0 => simp at h₂
      | f₂' + 1 =>
        cases htry : tryM (c :: cs') with
        | none =>
          have h₁' : cs'.length ≤ f := by
            simp only [List.length_cons] at h₁; omega
          have h₂' : cs'.length ≤ f₂' := by
            simp only [List.length_cons] at h₂; omega
          simp only [scanF, htry]
          rw [ih f₂' cs' h₁' h₂']
        | some pr =>
          obtain ⟨k, rest⟩ := pr
          have hlt := hm htry
          have h₁' : rest.length ≤ f := by
            simp only [List.length_cons] at h₁ hlt; omega
          have h₂' : rest.length ≤ f₂' := by
            simp only [List.length_cons] at h₂ hlt; omega
          simp only [scanF, htry]
          rw [ih f₂' rest h₁' h₂']

theorem keysF_fuel {tryM : List Char → Option (List Char × List Char)}
    (hm : ∀ {cs k rest}, tryM cs = some (k, rest) → rest.length < cs.length) :
    ∀ (f₁ f₂ : Nat) (cs : List Char), cs.length ≤ f₁ → cs.length ≤ f₂ →
      keysF tryM f₁ cs = keysF tryM f₂ cs := by
  intro f₁
  induction f₁ with
  | zero =>
    intro f₂ cs h₁ h₂
    match cs with
    | [] => cases f₂ <;> rfl
    | c :: cs' => simp at h₁
  | succ f ih =>
    intro f₂ cs h₁ h₂
    match cs with
    | [] => cases f₂ <;> rfl
    | c :: cs' =>
      match f₂ with
      | 0 => simp at h₂
      | f₂' + 1 =>
        cases htry : tryM (c :: cs') with
        | none =>
          have h₁' : cs'.length ≤ f := by
            simp only [List.length_cons] at h₁; omega
          have h₂' : cs'.length ≤ f₂' := by
            simp only [List.length_cons] at h₂; omega
          simp only [keysF, htry]
          rw [ih f₂' cs' h₁' h₂']
        | some pr =>
          obtain ⟨k, rest⟩ := pr
          have hlt := hm htry
          have h₁' : rest.length ≤ f := by
            simp only [List.length_cons] at h₁ hlt; omega
          have h₂' : rest.length ≤ f₂' := by
            simp only [List.length_cons] at h₂ hlt; omega
          simp only [keysF, htry]
          rw [ih f₂' rest h₁' h₂']

theorem scan_cons_none {tryM : List Char → Option (List Char × List Char)}
    (mkPh : List Char → String) (repl : String → String → Except RenderError String)
    (c : Char) (cs : List Char) (h : tryM (c :: cs) = none) :
    scanF tryM mkPh repl (c :: cs).length (c :: cs) =
      (scanF tryM mkPh repl cs.length cs).map (fun t => c :: t) := by
  simp only [List.length_cons, scanF, h]

theorem scan_cons_some {tryM : List Char → Option (List Char × List Char)}
    (hm : ∀ {cs k rest : List Char}, tryM cs = some (k, rest) → rest.length < cs.length)
    (mkPh : List Char → String) (repl : String → String → Except RenderError String)
    (c : Char) (cs : List Char) {k rest : List Char}
    (h : tryM (c :: cs) = some (k, rest)) :
    scanF tryM mkPh repl (c :: cs).length (c :: cs) =
      match repl (mkPh k) (String.mk k) with
      | .error e => .error e
      | .ok v => (scanF tryM mkPh repl rest.length rest).map (fun t => v.toList ++ t) := by
  have hlt := hm h
  simp only [List.length_cons] at hlt
  simp only [List.length_cons, scanF, h]
  cases hr : repl (mkPh k) (String.mk k) with
  | error e => rfl
  | ok v =>
    rw [scanF_fuel (fun h => hm h) mkPh repl cs.length rest.length rest
      (by omega) le_rfl]

theorem keys_cons_none {tryM : List Char → Option (List Char × List Char)}
    (c : Char) (cs : List Char) (h : tryM (c :: cs) = none) :
    keysF tryM (c :: cs).length (c :: cs) = keysF tryM cs.length cs := by
  simp only [List.length_cons, keysF, h]

theorem keys_cons_some {tryM : List Char → Option (List Char × List Char)}
    (hm : ∀ {cs k rest : List Char}, tryM cs = some (k, rest) → rest.length < cs.length)
    (c : Char) (cs : List Char) {k rest : List Char}
    (h : tryM (c :: cs) = some (k, rest)) :
    keysF tryM (c :: cs).length (c :: cs) =
      String.mk k :: keysF tryM rest.length rest := by
  have hlt := hm h
  simp only [List.length_cons] at hlt
  simp only [List.length_cons, keysF, h]
  rw [keysF_fuel (fun h => hm h) cs.length rest.length rest (by omega) le_rfl]

theorem scan_noMatch {tryM : List Char → Option (List Char × List Char)}
    (mkPh : List Char → String) (repl : String → String → Except RenderError String)
    (cs : List Char) (h : hasMatch tryM cs = false) :
    scanF tryM mkPh repl cs.length cs = .ok cs := by
  induction cs with
  | nil => rfl
  | cons c cs ih =>
    obtain ⟨h1, h2⟩ := hasMatch_false_head h
    rw [scan_cons_none mkPh repl c cs h1, ih h2]
    rfl

theorem keys_noMatch {tryM : List Char → Option (List Char × List Char)}
    (cs : List Char) (h : hasMatch tryM cs = false) :
    keysF tryM cs.length cs = [] := by
  induction cs with
  | nil => rfl
  | cons c cs ih =>
    obtain ⟨h1, h2⟩ := hasMatch_false_head h
    rw [keys_cons_none c cs h1, ih h2]

theorem scan_copy {tryM : List Char → Option (List Char × List Char)}
    (mkPh : List Char → String) (repl : String → String → Except RenderError String)
    (xs ys : List Char)
    (hxs : ∀ x ∈ xs, ∀ rest, tryM (x :: rest) = none) :
    scanF tryM mkPh repl (xs ++ ys).length (xs ++ ys) =
      (scanF tryM mkPh repl ys.length ys).map (fun t => xs ++ t) := by
  induction xs with
  | nil =>
    simp only [List.nil_append]
    cases scanF tryM mkPh repl ys.length ys <;> simp [Except.map]
  | cons x xs ih =>
    have h1 := hxs x (List.mem_cons_self x xs) (xs ++ ys)
    rw [List.cons_append, scan_cons_none mkPh repl x (xs ++ ys) h1,
      ih (fun a ha rest => hxs a (List.mem_cons_of_mem x ha) rest)]
    cases scanF tryM mkPh repl ys.length ys <;> simp [Except.map]

theorem hasMatch_noBrace {tryM : List Char → Option (List Char × List Char)}
    (htry : ∀ (x : Char) (rest : List Char), x ≠ '{' → tryM (x :: rest) = none)
    (xs : List Char) (h : '{' ∉ xs) : hasMatch tryM xs = false := by
  induction xs with
  | nil => rfl
  | cons x xs ih =>
    have hx : x ≠ '{' := fun hc => h (hc ▸ List.mem_cons_self x xs)
    simp only [hasMatch, htry x xs hx, Option.isSome_none, Bool.false_or]
    exact ih (fun hc => h (List.mem_cons_of_mem x hc))

theorem hasMatch_append_right {tryM : List Char → Option (List Char × List Char)}
    (xs ys : List Char) (h : hasMatch tryM ys = true) :
    hasMatch tryM (xs ++ ys) = true := by
  induction xs with
  | nil => simpa using h
  | cons x xs ih =>
    simp only [List.cons_append, hasMatch, List.append_eq, ih, Bool.or_true]

/-- Where the errors of a pass come from: any error of a
`String.replace` pass was thrown by its replacer. -/
theorem scan_error_src {tryM : List Char → Option (List Char × List Char)}
    (hm : ∀ {cs k rest : List Char}, tryM cs = some (k, rest) → rest.length < cs.length)
    (mkPh : List Char → String) (repl : String → String → Except RenderError String) :
    ∀ (n : Nat) (cs : List Char), cs.length ≤ n →
      ∀ e, scanF tryM mkPh repl cs.length cs = .error e →
        ∃ p k, repl p k = .error e := by
  intro n
  induction n with
  | zero =>
    intro cs hn e he
    match cs with
    | [] => simp [scanF] at he
    | c :: cs' => simp at hn
  | succ n ih =>
    intro cs hn e he
    match cs with
    | [] => simp [scanF] at he
    | c :: cs' =>
      simp only [List.length_cons] at hn
      cases htry : tryM (c :: cs') with
      | none =>
        rw [scan_cons_none mkPh repl c cs' htry] at he
        cases hrec : scanF tryM mkPh repl cs'.length cs' with
        | error e' =>
          rw [hrec] at he
          simp only [Except.map] at he
          cases he
          exact ih cs' (by omega) e hrec
        | ok out => rw [hrec] at he; simp [Except.map] at he
      | some pr =>
        obtain ⟨k, rest⟩ := pr
        have hlt := hm htry
        simp only [List.length_cons] at hlt
        rw [scan_cons_some (fun h => hm h) mkPh repl c cs' htry] at he
        cases hr : repl (mkPh k) (String.mk k) with
        | error e' =>
          rw [hr] at he
          cases he
          exact ⟨mkPh k, String.mk k, hr⟩
        | ok v =>
          rw [hr] at he
          simp only at he
          cases hrec : scanF tryM mkPh repl rest.length rest with
          | error e' =>
            rw [hrec] at he
            simp only [Except.map] at he
            cases he
            exact ih rest (by omega) e hrec
          | ok out => rw [hrec] at he; simp [Except.map] at he

/-- The fail-fast characterization of one pass: with a replacer that
fails exactly on "missing" keys (carrying the key), the pass fails with
the first missing key in scan order, and succeeds when no scanned key is
missing. -/
theorem scan_find {tryM : List Char → Option (List Char × List Char)}
    (hm : ∀ {cs k rest : List Char}, tryM cs = some (k, rest) → rest.length < cs.length)
    (mkPh : List Char → String) (repl : String → String → Except RenderError String)
    (missK : String → Bool)
    (hrepl : ∀ p k, (missK k = true → repl p k = .error (.missingValue k)) ∧
        (missK k = false → ∃ v, repl p k = .ok v)) :
    ∀ (n : Nat) (cs : List Char), cs.length ≤ n →
      ((∀ k, (keysF tryM cs.length cs).find? missK = some k →
          scanF tryM mkPh repl cs.length cs = .error (.missingValue k)) ∧
       ((keysF tryM cs.length cs).find? missK = none →
          ∃ out, scanF tryM mkPh repl cs.length cs = .ok out)) := by
  intro n
  induction n with
  | zero =>
    intro cs hn
    match cs with
    | [] => exact ⟨fun k hk => by simp [keysF] at hk, fun _ => ⟨[], rfl⟩⟩
    | c :: cs' => simp at hn
  | succ n ih =>
    intro cs hn
    match cs with
    | [] => exact ⟨fun k hk => by simp [keysF] at hk, fun _ => ⟨[], rfl⟩⟩
    | c :: cs' =>
      simp only [List.length_cons] at hn
      cases htry : tryM (c :: cs') with
      | none =>
        rw [keys_cons_none c cs' htry, scan_cons_none mkPh repl c cs' htry]
        obtain ⟨ih1, ih2⟩ := ih cs' (by omega)
        refine ⟨fun k hk => ?_, fun hk => ?_⟩
        · rw [ih1 k hk]; rfl
        · obtain ⟨out, hout⟩ := ih2 hk
          exact ⟨c :: out, by rw [hout]; rfl⟩
      | some pr =>
        obtain ⟨k, rest⟩ := pr
        have hlt := hm htry
        simp only [List.length_cons] at hlt
        rw [keys_cons_some (fun h => hm h) c cs' htry,
          scan_cons_some (fun h => hm h) mkPh repl c cs' htry]
        obtain ⟨ih1, ih2⟩ := ih rest (by omega)
        cases hmiss : missK (String.mk k) with
        | true =>
          rw [(hrepl (mkPh k) (String.mk k)).1 hmiss]
          refine ⟨fun k0 hk0 => ?_, fun hk0 => ?_⟩
          · rw [List.find?_cons_of_pos _ hmiss] at hk0
            cases hk0
            rfl
          · rw [List.find?_cons_of_pos _ hmiss] at hk0
            cases hk0
        | false =>
          obtain ⟨v, hv⟩ := (hrepl (mkPh k) (String.mk k)).2 hmiss
          rw [hv]
          simp only
          rw [List.find?_cons_of_neg _ (by simp [hmiss])]
          refine ⟨fun k0 hk0 => ?_, fun hk0 => ?_⟩
          · rw [ih1 k0 hk0]; rfl
          · obtain ⟨out, hout⟩ := ih2 hk0
            exact ⟨v.toList ++ out, by rw [hout]; rfl⟩

/-! ### The key grammar -/

/-- A character list that the key token matches in full: a nonempty
digit run, or an ident-start character followed by characters of
`[\w\-$.]` (this is the code's actual grammar; segments after a dot may
be empty or start with any tail character). -/
def validKey (k : List Char) : Bool :=
  match k with
  | [] => false
  | c :: cs =>
    if c.isDigit then cs.all Char.isDigit
    else isIdentStart c && cs.all isKeyTail

theorem takeWhile_all_append (p : Char → Bool) (xs : List Char) (y : Char)
    (ys : List Char) (h : xs.all p = true) (hy : p y = false) :
    (xs ++ y :: ys).takeWhile p = xs ∧ (xs ++ y :: ys).dropWhile p = y :: ys := by
  induction xs with
  | nil => simp [List.takeWhile, List.dropWhile, hy]
  | cons x xs ih =>
    simp only [List.all_cons, Bool.and_eq_true] at h
    obtain ⟨hx, hxs⟩ := h
    obtain ⟨ht, hd⟩ := ih hxs
    simp [List.takeWhile, List.dropWhile, hx, ht, hd]

/-- A valid key followed by a closing brace matches exactly the key. -/
theorem matchKey_close {k : List Char} (rest : List Char)
    (hk : validKey k = true) :
    matchKey (k ++ '}' :: rest) = some (k, '}' :: rest) := by
  match k with
  | [] => simp [validKey] at hk
  | c :: cs =>
    rw [validKey] at hk
    simp only [List.cons_append, matchKey]
    cases hd : c.isDigit with
    | true =>
      rw [hd, if_pos rfl] at hk
      simp only [hd, if_pos]
      obtain ⟨ht, hdr⟩ := takeWhile_all_append Char.isDigit cs '}' rest hk (by decide)
      rw [ht, hdr]
    | false =>
      rw [hd] at hk
      rw [if_neg (by simp)] at hk
      rw [Bool.and_eq_true] at hk
      obtain ⟨hi, hall⟩ := hk
      simp only [hd, Bool.false_eq_true, if_false, hi, if_pos]
      obtain ⟨ht, hdr⟩ := takeWhile_all_append isKeyTail cs '}' rest hall (by decide)
      rw [ht, hdr]

theorem validKey_all_keyTail {k : List Char} (h : validKey k = true) :
    ∀ c ∈ k, isKeyTail c = true := by
  match k with
  | [] => simp [validKey] at h
  | c :: cs =>
    rw [validKey] at h
    cases hd : c.isDigit with
    | true =>
      rw [hd, if_pos rfl] at h
      intro a ha
      rcases List.mem_cons.mp ha with rfl | ha
      · simp [isKeyTail, isIdentTail, Char.isAlphanum, hd]
      · have hda := List.all_eq_true.mp h a ha
        simp only [decide_eq_true_eq] at hda
        simp [isKeyTail, isIdentTail, Char.isAlphanum, hda]
    | false =>
      rw [hd, if_neg (by simp), Bool.and_eq_true] at h
      obtain ⟨hstart, hall⟩ := h
      intro a ha
      rcases List.mem_cons.mp ha with rfl | ha
      · simp only [isIdentStart, Bool.or_eq_true, decide_eq_true_eq] at hstart
        rcases hstart with (h1 | h1) | h1
        · simp [isKeyTail, isIdentTail, Char.isAlphanum, h1]
        · subst h1; decide
        · subst h1; decide
      · have := List.all_eq_true.mp hall a ha
        simpa using this

theorem keyTail_not_lbrace {c : Char} (h : isKeyTail c = true) : c ≠ '{' := by
  rintro rfl
  exact absurd h (by decide)

theorem validKey_not_lbrace {k : List Char} (h : validKey k = true) :
    '{' ∉ k :=
  fun hm => keyTail_not_lbrace (validKey_all_keyTail h '{' hm) rfl

/-! ### htmlEscape facts -/

theorem escapeChar_eq_self {c : Char}
    (h : isKeyTail c = true ∨ c = '{' ∨ c = '}') : escapeChar c = [c] := by
  rcases h with h | rfl | rfl
  · have h1 : c ≠ '&' := by rintro rfl; exact absurd h (by decide)
    have h2 : c ≠ '"' := by rintro rfl; exact absurd h (by decide)
    have h3 : c ≠ '\'' := by rintro rfl; exact absurd h (by decide)
    have h4 : c ≠ '<' := by rintro rfl; exact absurd h (by decide)
    have h5 : c ≠ '>' := by rintro rfl; exact absurd h (by decide)
    simp [escapeChar, h1, h2, h3, h4, h5]
  · rfl
  · rfl

theorem flatMap_escape_id {xs : List Char} (h : ∀ c ∈ xs, escapeChar c = [c]) :
    xs.flatMap escapeChar = xs := by
  induction xs with
  | nil => rfl
  | cons x xs ih =>
    rw [List.flatMap_cons, h x (List.mem_cons_self x xs),
      ih (fun c hc => h c (List.mem_cons_of_mem x hc))]
    rfl

/-- Escaping the text of a placeholder (braces plus key characters)
changes nothing: no key character is HTML-significant. -/
theorem htmlEscape_placeholder {s : String}
    (h : ∀ c ∈ s.toList, isKeyTail c = true ∨ c = '{' ∨ c = '}') :
    htmlEscape s = s := by
  have : s.toList.flatMap escapeChar = s.toList :=
    flatMap_escape_id (fun c hc => escapeChar_eq_self (h c hc))
  simp only [htmlEscape, this]
  rfl

theorem htmlEscape_no_lbrace {s : String} (h : '{' ∉ s.toList) :
    '{' ∉ (htmlEscape s).toList := by
  intro hmem
  have hmem' : '{' ∈ s.toList.flatMap escapeChar := hmem
  obtain ⟨c, hc, hin⟩ := List.mem_flatMap.mp hmem'
  by_cases h1 : c = '&'
  · subst h1; exact absurd hin (by decide)
  · by_cases h2 : c = '"'
    · subst h2; exact absurd hin (by decide)
    · by_cases h3 : c = '\''
      · subst h3; exact absurd hin (by decide)
      · by_cases h4 : c = '<'
        · subst h4; exact absurd hin (by decide)
        · by_cases h5 : c = '>'
          · subst h5; exact absurd hin (by decide)
          · simp only [escapeChar, h1, h2, h3, h4, h5, if_false,
              List.mem_singleton] at hin
            exact h (hin ▸ hc)

/-! ### Characterizing the replacer -/

theorem replace_eq (d : Value) (o : Options) (p key : String) :
    replace d o p key =
      if (transformedValue d o key).isAbsent then
        if o.ignoreMissing then .ok p else .error (.missingValue key)
      else .ok (jsString (transformedValue d o key)) := rfl

theorem replace_missing_error {d : Value} {o : Options} {key : String}
    (p : String) (hi : o.ignoreMissing = false)
    (h : (transformedValue d o key).isAbsent = true) :
    replace d o p key = .error (.missingValue key) := by
  simp [replace_eq, h, hi]

theorem replace_missing_ignore {d : Value} {o : Options} {key : String}
    (p : String) (hi : o.ignoreMissing = true)
    (h : (transformedValue d o key).isAbsent = true) :
    replace d o p key = .ok p := by
  simp [replace_eq, h, hi]

theorem replace_present {d : Value} {o : Options} {key : String}
    (p : String) (h : (transformedValue d o key).isAbsent = false) :
    replace d o p key = .ok (jsString (transformedValue d o key)) := by
  simp [replace_eq, h]

theorem replace_total_ignore {d : Value} {o : Options}
    (hi : o.ignoreMissing = true) (p key : String) :
    ∃ v, replace d o p key = .ok v := by
  rw [replace_eq]
  cases h : (transformedValue d o key).isAbsent with
  | true => exact ⟨p, by simp [hi]⟩
  | false => exact ⟨jsString (transformedValue d o key), by simp⟩

theorem replace_error_missing {d : Value} {o : Options} {p key : String}
    {e : RenderError} (h : replace d o p key = .error e) :
    ∃ k, e = .missingValue k := by
  rw [replace_eq] at h
  split at h
  · split at h
    · cases h
    · cases h; exact ⟨key, rfl⟩
  · cases h

theorem withEscape_error {fn : String → String → Except RenderError String}
    {p key : String} {e : RenderError}
    (h : withEscape fn p key = .error e) : fn p key = .error e := by
  unfold withEscape at h
  cases hf : fn p key with
  | error e' => rw [hf] at h; simp only [Except.map] at h; cases h; rfl
  | ok v => rw [hf] at h; simp [Except.map] at h

/-! ### Single/double instantiations of the generic scanner lemmas -/

theorem scanSingle_cons_none (repl : String → String → Except RenderError String)
    (c : Char) (cs : List Char) (h : trySingle (c :: cs) = none) :
    scanSingle repl (c :: cs) = (scanSingle repl cs).map (fun t => c :: t) :=
  scan_cons_none mkPh1 repl c cs h

theorem scanSingle_cons_some (repl : String → String → Except RenderError String)
    (c : Char) (cs : List Char) {k rest : List Char}
    (h : trySingle (c :: cs) = some (k, rest)) :
    scanSingle repl (c :: cs) =
      match repl (mkPh1 k) (String.mk k) with
      | .error e => .error e
      | .ok v => (scanSingle repl rest).map (fun t => v.toList ++ t) :=
  scan_cons_some (fun h => trySingle_shrink h) mkPh1 repl c cs h

theorem scanDouble_cons_none (repl : String → String → Except RenderError String)
    (c : Char) (cs : List Char) (h : tryDouble (c :: cs) = none) :
    scanDouble repl (c :: cs) = (scanDouble repl cs).map (fun t => c :: t) :=
  scan_cons_none mkPh2 repl c cs h

theorem scanDouble_cons_some (repl : String → String → Except RenderError String)
    (c : Char) (cs : List Char) {k rest : List Char}
    (h : tryDouble (c :: cs) = some (k, rest)) :
    scanDouble repl (c :: cs) =
      match repl (mkPh2 k) (String.mk k) with
      | .error e => .error e
      | .ok v => (scanDouble repl rest).map (fun t => v.toList ++ t) :=
  scan_cons_some (fun h => tryDouble_shrink h) mkPh2 repl c cs h

theorem hasSingle_noBrace {xs : List Char} (h : '{' ∉ xs) :
    hasSingle xs = false :=
  hasMatch_noBrace (fun _ _ hx => trySingle_not_lbrace hx) xs h

theorem hasDouble_noBrace {xs : List Char} (h : '{' ∉ xs) :
    hasDouble xs = false :=
  hasMatch_noBrace (fun _ _ hx => tryDouble_not_lbrace hx) xs h

theorem scanSingle_noBrace (repl : String → String → Except RenderError String)
    {xs : List Char} (h : '{' ∉ xs) : scanSingle repl xs = .ok xs :=
  scan_noMatch mkPh1 repl xs (hasSingle_noBrace h)

theorem scanDouble_noBrace (repl : String → String → Except RenderError String)
    {xs : List Char} (h : '{' ∉ xs) : scanDouble repl xs = .ok xs :=
  scan_noMatch mkPh2 repl xs (hasDouble_noBrace h)

theorem scanSingle_noMatch (repl : String → String → Except RenderError String)
    {xs : List Char} (h : hasSingle xs = false) : scanSingle repl xs = .ok xs :=
  scan_noMatch mkPh1 repl xs h

theorem scanDouble_noMatch (repl : String → String → Except RenderError String)
    {xs : List Char} (h : hasDouble xs = false) : scanDouble repl xs = .ok xs :=
  scan_noMatch mkPh2 repl xs h

theorem scanSingle_copy (repl : String → String → Except RenderError String)
    {xs : List Char} (ys : List Char) (h : '{' ∉ xs) :
    scanSingle repl (xs ++ ys) = (scanSingle repl ys).map (fun t => xs ++ t) :=
  scan_copy mkPh1 repl xs ys
    (fun _x hx _ => trySingle_not_lbrace (fun hc => h (hc ▸ hx)))

theorem scanDouble_copy (repl : String → String → Except RenderError String)
    {xs : List Char} (ys : List Char) (h : '{' ∉ xs) :
    scanDouble repl (xs ++ ys) = (scanDouble repl ys).map (fun t => xs ++ t) :=
  scan_copy mkPh2 repl xs ys
    (fun _x hx _ => tryDouble_not_lbrace (fun hc => h (hc ▸ hx)))

/-! ### Placeholders in context -/

theorem trySingle_ph {key : List Char} (post : List Char)
    (hk : validKey key = true) :
    trySingle ('{' :: (key ++ '}' :: post)) = some (key, post) := by
  simp only [trySingle, if_pos]
  rw [matchKey_close post hk]
  rfl

theorem tryDouble_ph {key : List Char} (post : List Char)
    (hk : validKey key = true) :
    tryDouble ('{' :: '{' :: (key ++ '}' :: '}' :: post)) = some (key, post) := by
  simp only [tryDouble, if_pos]
  rw [show key ++ '}' :: '}' :: post = key ++ '}' :: ('}' :: post) from rfl,
    matchKey_close ('}' :: post) hk]
  rfl

theorem trySingle_lbrace_nokey (cs : List Char) :
    trySingle ('{' :: '{' :: cs) = none := by
  have h1 : Char.isDigit '{' = false := by decide
  have h2 : isIdentStart '{' = false := by decide
  simp [trySingle, matchKey, h1, h2]

/-- A template whose only brace is the opening of one single-brace
placeholder has no double-brace match. -/
theorem hasDouble_sandwich {pre key post : List Char}
    (hpre : '{' ∉ pre) (hkey : '{' ∉ key) (hpost : '{' ∉ post) :
    hasDouble (pre ++ '{' :: (key ++ '}' :: post)) = false := by
  induction pre with
  | nil =>
    simp only [List.nil_append]
    have h1 : tryDouble ('{' :: (key ++ '}' :: post)) = none := by
      cases key with
      | nil => simp [tryDouble]
      | cons k0 ks =>
        have hk0 : k0 ≠ '{' := fun hc => hkey (hc ▸ List.mem_cons_self k0 ks)
        simp [tryDouble, hk0]
    show hasMatch tryDouble _ = false
    simp only [hasMatch, h1, Option.isSome_none, Bool.false_or]
    refine hasMatch_noBrace (fun _ _ hx => tryDouble_not_lbrace hx) _ ?_
    intro hm
    rcases List.mem_append.mp hm with h | h
    · exact hkey h
    · rcases List.mem_cons.mp h with h | h
      · exact absurd h (by decide)
      · exact hpost h
  | cons p pre ih =>
    have hp : p ≠ '{' := fun hc => hpre (hc ▸ List.mem_cons_self p pre)
    have hpre' : '{' ∉ pre := fun hm => hpre (List.mem_cons_of_mem p hm)
    show hasMatch tryDouble _ = false
    simp only [List.cons_append, hasMatch, tryDouble_not_lbrace hp,
      Option.isSome_none, Bool.false_or]
    exact ih hpre'

/-- A double-brace placeholder with a valid key is found by
`doubleBraces.test` wherever it sits. -/
theorem hasDouble_with_ph {key : List Char} (pre post : List Char)
    (hk : validKey key = true) :
    hasDouble (pre ++ '{' :: '{' :: (key ++ '}' :: '}' :: post)) = true := by
  apply hasMatch_append_right
  show hasMatch tryDouble _ = true
  simp [hasMatch, tryDouble_ph post hk]

/-! ### Unfolding the renderer -/

theorem render_noDouble {t : String} {d : Value} {o : Options}
    (h : hasDouble t.toList = false) :
    render t d o =
      match scanSingle (replace d o) t.toList with
      | .error e => .error e
      | .ok out => .ok (String.mk out) := by
  simp only [render, h, Bool.false_eq_true, if_false]

theorem render_withDouble {t : String} {d : Value} {o : Options}
    (h : hasDouble t.toList = true) :
    render t d o =
      match scanDouble (withEscape (replace d o)) t.toList with
      | .error e => .error e
      | .ok mid =>
        match scanSingle (replace d o) mid with
        | .error e => .error e
        | .ok out => .ok (String.mk out) := by
  simp only [render, h, if_true]

theorem ph1_string (key : String) : mkPh1 key.toList = "\x7b" ++ key ++ "\x7d" := rfl

theorem ph2_string (key : String) : mkPh2 key.toList = "\x7b\x7b" ++ key ++ "\x7d\x7d" := rfl

theorem string_mk_toList (s : String) : String.mk s.toList = s := rfl

theorem string_toList_append (a b : String) :
    (a ++ b).toList = a.toList ++ b.toList := rfl

/-! ### Small finishing helpers -/

theorem isNull_eq {v : Value} (h : v.isNull = true) : v = .vnull := by
  cases v <;> first | rfl | simp [Value.isNull] at h

theorem string_mk_eq_of_toList {l : List Char} {s : String}
    (h : l = s.toList) : String.mk l = s := by
  rw [h]
  rfl

theorem toList_lbrace : ("\x7b" : String).toList = ['{'] := rfl

theorem toList_rbrace : ("\x7d" : String).toList = ['}'] := rfl

theorem toList_dlbrace : ("\x7b\x7b" : String).toList = ['{', '{'] := rfl

theorem toList_drbrace : ("\x7d\x7d" : String).toList = ['}', '}'] := rfl

theorem string_mk_append3 (a b c : String) :
    String.mk (a.toList ++ (b.toList ++ c.toList)) = a ++ b ++ c := by
  show String.mk (a.toList ++ (b.toList ++ c.toList))
      = String.mk ((a.toList ++ b.toList) ++ c.toList)
  rw [List.append_assoc]

/-- A pass whose replacer never fails, never fails. -/
theorem scan_total {tryM : List Char → Option (List Char × List Char)}
    (hm : ∀ {cs k rest : List Char}, tryM cs = some (k, rest) → rest.length < cs.length)
    (mkPh : List Char → String) (repl : String → String → Except RenderError String)
    (hrepl : ∀ p k, ∃ v, repl p k = .ok v) :
    ∀ (n : Nat) (cs : List Char), cs.length ≤ n →
      ∃ out, scanF tryM mkPh repl cs.length cs = .ok out := by
  intro n
  induction n with
  | zero =>
    intro cs hn
    match cs with
    | [] => exact ⟨[], rfl⟩
    | c :: cs' => simp at hn
  | succ n ih =>
    intro cs hn
    match cs with
    | [] => exact ⟨[], rfl⟩
    | c :: cs' =>
      simp only [List.length_cons] at hn
      cases htry : tryM (c :: cs') with
      | none =>
        obtain ⟨out, hout⟩ := ih cs' (by omega)
        exact ⟨c :: out, by rw [scan_cons_none mkPh repl c cs' htry, hout]; rfl⟩
      | some pr =>
        obtain ⟨k, rest⟩ := pr
        have hlt := hm htry
        simp only [List.length_cons] at hlt
        obtain ⟨v, hv⟩ := hrepl (mkPh k) (String.mk k)
        obtain ⟨out, hout⟩ := ih rest (by omega)
        refine ⟨v.toList ++ out, ?_⟩
        rw [scan_cons_some (fun h => hm h) mkPh repl c cs' htry, hv, hout]
        rfl

/-- Any error a render surfaces after validation is a missing-value
error. -/
theorem render_error_missing {t : String} {d : Value} {o : Options}
    {e : RenderError} (h : render t d o = .error e) :
    ∃ k, e = .missingValue k := by
  cases hd : hasDouble t.toList with
  | false =>
    rw [render_noDouble hd] at h
    cases hs : scanSingle (replace d o) t.toList with
    | error e' =>
      rw [hs] at h
      injection h with h2
      subst h2
      obtain ⟨p, k, hp⟩ := scan_error_src (fun h => trySingle_shrink h) mkPh1
        (replace d o) t.toList.length t.toList le_rfl e' hs
      exact replace_error_missing hp
    | ok out => rw [hs] at h; cases h
  | true =>
    rw [render_withDouble hd] at h
    cases hsd : scanDouble (withEscape (replace d o)) t.toList with
    | error e' =>
      rw [hsd] at h
      injection h with h2
      subst h2
      obtain ⟨p, k, hp⟩ := scan_error_src (fun h => tryDouble_shrink h) mkPh2
        (withEscape (replace d o)) t.toList.length t.toList le_rfl e' hsd
      exact replace_error_missing (withEscape_error hp)
    | ok mid =>
      rw [hsd] at h
      dsimp only at h
      cases hs : scanSingle (replace d o) mid with
      | error e' =>
        rw [hs] at h
        injection h with h2
        subst h2
        obtain ⟨p, k, hp⟩ := scan_error_src (fun h => trySingle_shrink h) mkPh1
          (replace d o) mid.length mid le_rfl e' hs
        exact replace_error_missing hp
      | ok out => rw [hs] at h; cases h

/-! ## The claims -/

/-- C5: whenever the validator produces an issues result, the render call
fails with a `SchemaValidationError` carrying the full ordered issue
list, independently of the template, the options and hence of any
substitution work: no placeholder resolution, transform call, or partial
output is observable in the result. -/
theorem holma_validation_fails (t : String) (schema : Value → ValidationResult)
    (data : Value) (o : Options) (l : List Issue)
    (h : schema data = .issues l) :
    holma (.vstr t) schema data o = .error (.schemaValidation l) := by
  simp only [holma, h]

theorem holma_validation_fails_witness :
    holma (.vstr "Hello {name}!")
        (fun _ => .issues [⟨"invalid", ["name"]⟩]) (.vobj []) ⟨false, none⟩
      = .error (.schemaValidation [⟨"invalid", ["name"]⟩]) :=
  holma_validation_fails "Hello {name}!"
    (fun _ => .issues [⟨"invalid", ["name"]⟩]) (.vobj []) ⟨false, none⟩
    [⟨"invalid", ["name"]⟩] rfl

/-- C7: a non-string template argument fails with a type error before the
validator result is even consulted (the result holds for every validator
and data), and a string template argument never produces a type error:
every error a string-template call surfaces is a validation or
missing-value error. -/
theorem holma_template_type_check :
    (∀ (targ : Value) (schema : Value → ValidationResult) (data : Value)
        (o : Options), targ.isStr = false →
        holma targ schema data o = .error (.typeMismatch (jsTypeof targ)))
  ∧ (∀ (t : String) (schema : Value → ValidationResult) (data : Value)
        (o : Options) (msg : String),
        holma (.vstr t) schema data o ≠ .error (.typeMismatch msg)) := by
  constructor
  · intro targ schema data o h
    cases targ <;> first
      | rfl
      | (simp [Value.isStr] at h)
  · intro t schema data o msg h
    simp only [holma] at h
    cases hs : schema data with
    | issues l => rw [hs] at h; cases h
    | value safeData =>
      rw [hs] at h
      obtain ⟨k, hk⟩ := render_error_missing h
      cases hk

theorem holma_template_type_check_witness :
    holma (.vnum 42) (fun _ => .issues [⟨"boom", []⟩]) (.vobj []) ⟨false, none⟩
      = .error (.typeMismatch "number") :=
  holma_template_type_check.1 (.vnum 42) (fun _ => .issues [⟨"boom", []⟩])
    (.vobj []) ⟨false, none⟩ rfl

/-- `typeof v === 'object'` for the traversable kinds, per the spec's
"indexable/traversable structure" (for C6's comparison walk). -/
def Value.isTraversable : Value → Bool
  | .vobj _ => true
  | .varr _ => true
  | _ => false

/-- Field/index access shared by the code walk and the spec walk. -/
def jsIndex : Value → String → Value
  | .vobj fields, part => lookupFields fields part
  | .varr elems, part => arrIndex elems part
  | _, _ => .vabsent

/-- Comparison definition for C6, following the spec's words (§4.2 "Key
resolution"): walk each segment in order; if the current value is
null/absent, resolution stops and yields absent; if the current value is
not an indexable/traversable structure, resolution stops and yields
absent; otherwise descend into the named field/index.  It is a total
function: a missing branch yields the absent marker, never an error. -/
def lookupSpec : Value → List String → Value
  | v, [] => v
  | v, s :: rest =>
    if v.isNullish then .vabsent
    else if v.isTraversable then lookupSpec (jsIndex v s) rest
    else .vabsent

/-- C6: nested lookup is total (it is a plain function into `Value`, with
the absent marker `vabsent` as its failure mode — no `Except`/exception
path exists) and agrees with the spec's segment walk on every data value
and every dot-separated key. -/
theorem getNestedValue_total_walk (d : Value) (path : String) :
    getNestedValue d path = lookupSpec d ((splitDot path.toList).map String.mk) := by
  unfold getNestedValue
  generalize (splitDot path.toList).map String.mk = segs
  induction segs generalizing d with
  | nil => rfl
  | cons s rest ih =>
    cases d <;>
      simp [NestedGo, lookupSpec, Value.isNullish, Value.isTraversable, jsIndex, ih]

/-- Comparison definition for C8, following the spec's words (§4.2): the
renderer with the ESCAPED first pass unconditionally executed — no
`doubleBraces.test` skip guard — then the RAW pass on its output. -/
def renderAlways (template : String) (safeData : Value) (o : Options) :
    Except RenderError String :=
  match scanDouble (withEscape (replace safeData o)) template.toList with
  | .error e => .error e
  | .ok mid =>
    match scanSingle (replace safeData o) mid with
    | .error e => .error e
    | .ok out => .ok (String.mk out)

/-- C8: on a template with no double-brace match, the guarded renderer
(the code) and the renderer that always runs the first pass produce the
same outcome — the skip guard is a pure optimization. -/
theorem render_skip_guard_equiv (t : String) (d : Value) (o : Options)
    (h : hasDouble t.toList = false) : render t d o = renderAlways t d o := by
  rw [render_noDouble h]
  unfold renderAlways
  rw [scanDouble_noMatch _ h]

theorem render_skip_guard_equiv_witness :
    hasDouble "Hello {name}".toList = false
    ∧ render "Hello {name}" (.vobj [("name", .vstr "World")]) ⟨false, none⟩
        = renderAlways "Hello {name}" (.vobj [("name", .vstr "World")]) ⟨false, none⟩ :=
  ⟨rfl, render_skip_guard_equiv "Hello {name}" (.vobj [("name", .vstr "World")])
    ⟨false, none⟩ rfl⟩

/-- C1 counterexample: with data `{t: "{name}", name: "Bob"}` the
template `{{t}}` renders to `"Bob"`: the value inserted by the ESCAPED
pass — the text `{name}`, matching the RAW placeholder syntax — does not
appear verbatim in the output; it was substituted by the RAW pass. -/
theorem escaped_insertion_rescanned_counterexample :
    render "{{t}}" (.vobj [("t", .vstr "{name}"), ("name", .vstr "Bob")])
        ⟨false, none⟩ = .ok "Bob"
    ∧ ("Bob" : String) ≠ "{name}" :=
  ⟨rfl, by decide⟩

/-- C1 amended: values inserted by the RAW pass are literal text and are
never re-scanned — the render of a single RAW placeholder returns the
resolved value verbatim for every value, even one shaped like a
placeholder.  (Values inserted by the ESCAPED pass, by contrast, are
scanned again by the subsequent RAW pass, as the counterexample shows.) -/
theorem raw_insertion_literal (v : String) :
    render "{t}" (.vobj [("t", .vstr v)]) ⟨false, none⟩ = .ok v := by
  have h : render "{t}" (.vobj [("t", .vstr v)]) ⟨false, none⟩
      = .ok (String.mk (v.toList ++ [])) := rfl
  rw [h, List.append_nil]
  rfl

/-- The key grammar as C9's words state it: one-or-more decimal digits,
or non-empty dot-separated segments, each an identifier starting with a
letter, `$`, or `_`, followed by word characters, hyphens, or `$`. -/
def claimSegment (s : List Char) : Bool :=
  match s with
  | [] => false
  | c :: cs => isIdentStart c && cs.all isIdentTail

/-- The claim's stated grammar for a whole key (for C9). -/
def claimKeyGrammar (k : List Char) : Bool :=
  (!k.isEmpty && k.all Char.isDigit) || (splitDot k).all claimSegment

/-- C9 counterexample: `a.` does not match the grammar stated in the
claim (its second dot-separated segment is empty), yet the template
`{a.}` is not left untouched: the code's regex accepts it (segments
after a dot may be empty), so the renderer treats it as a placeholder
and fails with a missing-value error on empty data. -/
theorem bad_brace_counterexample :
    claimKeyGrammar "a.".toList = false
    ∧ render "{a.}" (.vobj []) ⟨false, none⟩ = .error (.missingValue "a.") :=
  ⟨rfl, rfl⟩

/-- C9 amended: the code's actual grammar is wider than the claim states
(after the first identifier segment, dot-separated segments may be empty
or start with any of `[\w\-$]`).  Brace text that fails the actual
grammar — no single- or double-brace match anywhere — is left untouched:
the render returns the template unchanged with no error, for every data
and options. -/
theorem unmatched_braces_untouched (t : String) (d : Value) (o : Options)
    (h1 : hasDouble t.toList = false) (h2 : hasSingle t.toList = false) :
    render t d o = .ok t := by
  rw [render_noDouble h1, scanSingle_noMatch _ h2]
  rfl

theorem unmatched_braces_untouched_witness :
    render "{.x}" (.vobj []) ⟨false, none⟩ = .ok "{.x}" :=
  unmatched_braces_untouched "{.x}" (.vobj []) ⟨false, none⟩ rfl rfl

/-- A lone single-brace placeholder with a valid key renders to exactly
what its replacer yields. -/
theorem scanSingle_single_ph (repl : String → String → Except RenderError String)
    (key : List Char) (hk : validKey key = true) :
    scanSingle repl ('{' :: (key ++ '}' :: [])) =
      match repl (mkPh1 key) (String.mk key) with
      | .error e => .error e
      | .ok v => .ok (v.toList ++ []) := by
  rw [scanSingle_cons_some repl '{' _ (trySingle_ph [] hk)]
  cases repl (mkPh1 key) (String.mk key) <;> rfl

theorem render_single_ph (key : String) (d : Value) (o : Options)
    (hk : validKey key.toList = true) :
    render ("\x7b" ++ key ++ "\x7d") d o = replace d o ("\x7b" ++ key ++ "\x7d") key := by
  have hkl : '{' ∉ key.toList := validKey_not_lbrace hk
  have hd : hasDouble ("\x7b" ++ key ++ "\x7d").toList = false := by
    have h0 := hasDouble_sandwich (List.not_mem_nil '{') hkl
      (List.not_mem_nil '{')
    simpa using h0
  rw [render_noDouble hd]
  rw [show ("\x7b" ++ key ++ "\x7d").toList = '{' :: (key.toList ++ '}' :: []) from rfl]
  rw [scanSingle_single_ph (replace d o) key.toList hk]
  rw [show mkPh1 key.toList = "\x7b" ++ key ++ "\x7d" from rfl,
    show String.mk key.toList = key from rfl]
  cases hr : replace d o ("\x7b" ++ key ++ "\x7d") key with
  | error e => rfl
  | ok v =>
    show Except.ok (String.mk (v.toList ++ [])) = Except.ok v
    rw [List.append_nil]
    rfl

/-- C10: null is asymmetric by position in the key path.  A key that
resolves to an explicit null (final segment) is not missing: it renders
as the text `null`.  But a null reached with path segments still to
walk yields the absent marker, and such a key triggers the
missing-value policy: `MissingValueError` by default, placeholder
pass-through under `ignoreMissing`. -/
theorem null_position_asymmetry :
    (∀ (key : String) (d : Value), validKey key.toList = true →
        (getNestedValue d key).isNull = true →
        render ("\x7b" ++ key ++ "\x7d") d ⟨false, none⟩ = .ok "null")
  ∧ (∀ (ps : List String), ps ≠ [] → NestedGo .vnull ps = .vabsent)
  ∧ (∀ (key : String) (d : Value), validKey key.toList = true →
        (getNestedValue d key).isAbsent = true →
        render ("\x7b" ++ key ++ "\x7d") d ⟨false, none⟩ = .error (.missingValue key)
        ∧ render ("\x7b" ++ key ++ "\x7d") d ⟨true, none⟩ = .ok ("\x7b" ++ key ++ "\x7d")) := by
  refine ⟨?_, ?_, ?_⟩
  · intro key d hk hnull
    have hv : getNestedValue d key = .vnull := isNull_eq hnull
    have htv : transformedValue d ⟨false, none⟩ key = .vnull := hv
    rw [render_single_ph key d ⟨false, none⟩ hk,
      replace_present _ (by rw [htv]; rfl), htv]
    rfl
  · intro ps hps
    cases ps with
    | nil => exact absurd rfl hps
    | cons p ps' => rfl
  · intro key d hk hundef
    have htv : (transformedValue d ⟨false, none⟩ key).isAbsent = true := hundef
    have htv' : (transformedValue d ⟨true, none⟩ key).isAbsent = true := hundef
    constructor
    · rw [render_single_ph key d ⟨false, none⟩ hk,
        replace_missing_error _ rfl htv]
    · rw [render_single_ph key d ⟨true, none⟩ hk,
        replace_missing_ignore _ rfl htv']

theorem null_position_asymmetry_witness :
    render "{a}" (.vobj [("a", .vnull)]) ⟨false, none⟩ = .ok "null"
    ∧ render "{a.b}" (.vobj [("a", .vnull)]) ⟨false, none⟩
        = .error (.missingValue "a.b")
    ∧ render "{a.b}" (.vobj [("a", .vnull)]) ⟨true, none⟩ = .ok "{a.b}" := by
  refine ⟨?_, ?_, ?_⟩
  · exact null_position_asymmetry.1 "a" (.vobj [("a", .vnull)]) rfl rfl
  · exact (null_position_asymmetry.2.2 "a.b" (.vobj [("a", .vnull)]) rfl rfl).1
  · exact (null_position_asymmetry.2.2 "a.b" (.vobj [("a", .vnull)]) rfl rfl).2

theorem render_pipeline {t : String} {d : Value} {o : Options}
    {mid out : List Char} (hd : hasDouble t.toList = true)
    (h1 : scanDouble (withEscape (replace d o)) t.toList = .ok mid)
    (h2 : scanSingle (replace d o) mid = .ok out) :
    render t d o = .ok (String.mk out) := by
  rw [render_withDouble hd, h1]
  dsimp only
  rw [h2]

theorem render_pipeline_noD {t : String} {d : Value} {o : Options}
    {out : List Char} (hd : hasDouble t.toList = false)
    (h2 : scanSingle (replace d o) t.toList = .ok out) :
    render t d o = .ok (String.mk out) := by
  rw [render_noDouble hd, h2]

/-- C2: in a template mixing a RAW placeholder `{a}` and an ESCAPED
placeholder `{{b}}` (in either order), the RAW substitution result is
the stringified value with no HTML-escaping, and the ESCAPED
substitution result is the stringified value HTML-escaped; the escape
maps at minimum the five HTML-significant characters to their
entities.  (`vb` is assumed brace-free so that the escaped insertion is
not itself re-matched by the RAW pass — see C1.) -/
theorem dual_class_substitution (va vb : String) (hb : '{' ∉ vb.toList) :
    (render "{a} {{b}}" (.vobj [("a", .vstr va), ("b", .vstr vb)]) ⟨false, none⟩
        = .ok (va ++ " " ++ htmlEscape vb))
  ∧ (render "{{b}} {a}" (.vobj [("a", .vstr va), ("b", .vstr vb)]) ⟨false, none⟩
        = .ok (htmlEscape vb ++ " " ++ va))
  ∧ htmlEscape "&" = "&amp;" ∧ htmlEscape "<" = "&lt;" ∧ htmlEscape ">" = "&gt;"
  ∧ htmlEscape "\"" = "&quot;" ∧ htmlEscape "'" = "&#39;" := by
  have hbe : '{' ∉ (htmlEscape vb).toList := htmlEscape_no_lbrace hb
  have hbe' : '{' ∉ (htmlEscape vb).toList ++ ([] : List Char) := by
    simpa using hbe
  refine ⟨?_, ?_, rfl, rfl, rfl, rfl, rfl⟩
  · have h1 : scanDouble
        (withEscape (replace (.vobj [("a", .vstr va), ("b", .vstr vb)]) ⟨false, none⟩))
        "{a} {{b}}".toList
        = .ok ('{' :: 'a' :: '}' :: ' ' :: ((htmlEscape vb).toList ++ [])) := rfl
    have h2 : scanSingle
        (replace (.vobj [("a", .vstr va), ("b", .vstr vb)]) ⟨false, none⟩)
        ('{' :: 'a' :: '}' :: ' ' :: ((htmlEscape vb).toList ++ []))
        = .ok (va.toList ++ (' ' :: ((htmlEscape vb).toList ++ []))) := by
      rw [scanSingle_cons_some _ '{' _
        (show trySingle ('{' :: 'a' :: '}' :: ' ' :: ((htmlEscape vb).toList ++ []))
            = some (['a'], ' ' :: ((htmlEscape vb).toList ++ [])) from rfl)]
      rw [show replace (.vobj [("a", .vstr va), ("b", .vstr vb)]) ⟨false, none⟩
          (mkPh1 ['a']) (String.mk ['a']) = .ok va from rfl]
      dsimp only
      rw [scanSingle_cons_none _ ' ' _ (trySingle_not_lbrace (by decide)),
        scanSingle_noBrace _ hbe']
      rfl
    refine (render_pipeline
        (show hasDouble "{a} {{b}}".toList = true from rfl) h1 h2).trans
      (congrArg Except.ok ?_)
    rw [List.append_nil]
    exact string_mk_append3 va " " (htmlEscape vb)
  · have h1 : scanDouble
        (withEscape (replace (.vobj [("a", .vstr va), ("b", .vstr vb)]) ⟨false, none⟩))
        "{{b}} {a}".toList
        = .ok ((htmlEscape vb).toList ++ (' ' :: '{' :: 'a' :: '}' :: [])) := rfl
    have h2 : scanSingle
        (replace (.vobj [("a", .vstr va), ("b", .vstr vb)]) ⟨false, none⟩)
        ((htmlEscape vb).toList ++ (' ' :: '{' :: 'a' :: '}' :: []))
        = .ok ((htmlEscape vb).toList ++ (' ' :: (va.toList ++ []))) := by
      rw [scanSingle_copy _ _ hbe]
      rw [show scanSingle
          (replace (.vobj [("a", .vstr va), ("b", .vstr vb)]) ⟨false, none⟩)
          (' ' :: '{' :: 'a' :: '}' :: []) = .ok (' ' :: (va.toList ++ [])) from rfl]
      rfl
    refine (render_pipeline
        (show hasDouble "{{b}} {a}".toList = true from rfl) h1 h2).trans
      (congrArg Except.ok ?_)
    rw [List.append_nil]
    exact string_mk_append3 (htmlEscape vb) " " va

theorem dual_class_substitution_witness :
    render "{a} {{b}}" (.vobj [("a", .vstr "<i>"), ("b", .vstr "<b&>")]) ⟨false, none⟩
        = .ok "<i> &lt;b&amp;&gt;"
    ∧ render "{{b}} {a}" (.vobj [("a", .vstr "<i>"), ("b", .vstr "<b&>")]) ⟨false, none⟩
        = .ok "&lt;b&amp;&gt; <i>" := by
  refine ⟨?_, ?_⟩
  · exact (dual_class_substitution "<i>" "<b&>" (by decide)).1
  · exact (dual_class_substitution "<i>" "<b&>" (by decide)).2.1

/-- C4: with `ignoreMissing`, the render call always succeeds, and a
placeholder of either class whose resolved-and-transformed value is
absent is left character-for-character unchanged in the output — for the
ESCAPED class the preserved `{{key}}` text survives both the HTML-escape
step (key characters are never HTML-significant) and the subsequent RAW
pass (whose inner `{key}` match re-inserts its own placeholder text). -/
theorem ignore_missing_pass_through (d : Value) (o : Options)
    (hi : o.ignoreMissing = true) :
    (∀ t : String, ∃ s, render t d o = .ok s)
  ∧ (∀ (key pre post : String), validKey key.toList = true →
      '{' ∉ pre.toList → '{' ∉ post.toList →
      (transformedValue d o key).isAbsent = true →
      render (pre ++ "\x7b" ++ key ++ "\x7d" ++ post) d o
          = .ok (pre ++ "\x7b" ++ key ++ "\x7d" ++ post)
      ∧ render (pre ++ "\x7b\x7b" ++ key ++ "\x7d\x7d" ++ post) d o
          = .ok (pre ++ "\x7b\x7b" ++ key ++ "\x7d\x7d" ++ post)) := by
  constructor
  · intro t
    have hrepl1 : ∀ p k, ∃ v, replace d o p k = .ok v := replace_total_ignore hi
    have hrepl2 : ∀ p k, ∃ v, withEscape (replace d o) p k = .ok v := by
      intro p k
      obtain ⟨v, hv⟩ := hrepl1 p k
      exact ⟨htmlEscape v, by rw [withEscape, hv]; rfl⟩
    cases hd : hasDouble t.toList with
    | false =>
      obtain ⟨out, hout⟩ := scan_total (fun h => trySingle_shrink h) mkPh1
        (replace d o) hrepl1 t.toList.length t.toList le_rfl
      exact ⟨String.mk out, render_pipeline_noD hd hout⟩
    | true =>
      obtain ⟨mid, hmid⟩ := scan_total (fun h => tryDouble_shrink h) mkPh2
        (withEscape (replace d o)) hrepl2 t.toList.length t.toList le_rfl
      obtain ⟨out, hout⟩ := scan_total (fun h => trySingle_shrink h) mkPh1
        (replace d o) hrepl1 mid.length mid le_rfl
      exact ⟨String.mk out, render_pipeline hd hmid hout⟩
  · intro key pre post hk hpre hpost hmiss
    have hkl : '{' ∉ key.toList := validKey_not_lbrace hk
    have hT1 : (pre ++ "\x7b" ++ key ++ "\x7d" ++ post).toList
        = pre.toList ++ '{' :: (key.toList ++ '}' :: post.toList) := by
      simp only [string_toList_append, toList_lbrace, toList_rbrace,
        List.append_assoc, List.singleton_append, List.cons_append,
        List.nil_append]
    have hT2 : (pre ++ "\x7b\x7b" ++ key ++ "\x7d\x7d" ++ post).toList
        = pre.toList ++ '{' :: '{' :: (key.toList ++ '}' :: '}' :: post.toList) := by
      simp only [string_toList_append, toList_dlbrace, toList_drbrace,
        List.append_assoc, List.cons_append, List.nil_append]
    have hd1 : hasDouble (pre ++ "\x7b" ++ key ++ "\x7d" ++ post).toList = false := by
      rw [hT1]
      exact hasDouble_sandwich hpre hkl hpost
    have hd2 : hasDouble (pre ++ "\x7b\x7b" ++ key ++ "\x7d\x7d" ++ post).toList = true := by
      rw [hT2]
      exact hasDouble_with_ph pre.toList post.toList hk
    constructor
    · have h2 : scanSingle (replace d o)
          (pre.toList ++ '{' :: (key.toList ++ '}' :: post.toList))
          = .ok (pre.toList ++ (("\x7b" ++ key ++ "\x7d").toList ++ post.toList)) := by
        rw [scanSingle_copy (replace d o) _ hpre]
        rw [scanSingle_cons_some (replace d o) '{' _ (trySingle_ph post.toList hk)]
        rw [show String.mk key.toList = key from rfl,
          show mkPh1 key.toList = "\x7b" ++ key ++ "\x7d" from rfl]
        rw [replace_missing_ignore ("\x7b" ++ key ++ "\x7d") hi hmiss]
        dsimp only
        rw [scanSingle_noBrace (replace d o) hpost]
        rfl
      refine (render_pipeline_noD hd1 (by rw [hT1]; exact h2)).trans
        (congrArg Except.ok ?_)
      refine string_mk_eq_of_toList ?_
      simp only [string_toList_append, toList_lbrace, toList_rbrace,
        List.append_assoc, List.singleton_append, List.cons_append,
        List.nil_append]
    · have hesc : htmlEscape ("\x7b\x7b" ++ key ++ "\x7d\x7d") = "\x7b\x7b" ++ key ++ "\x7d\x7d" := by
        refine htmlEscape_placeholder ?_
        intro c hc
        have hshape : ("\x7b\x7b" ++ key ++ "\x7d\x7d").toList
            = '{' :: '{' :: (key.toList ++ '}' :: '}' :: []) := by
          simp only [string_toList_append, toList_dlbrace, toList_drbrace,
            List.append_assoc, List.cons_append, List.nil_append,
            List.append_nil]
        rw [hshape] at hc
        rcases List.mem_cons.mp hc with rfl | hc
        · exact Or.inr (Or.inl rfl)
        rcases List.mem_cons.mp hc with rfl | hc
        · exact Or.inr (Or.inl rfl)
        rcases List.mem_append.mp hc with hc | hc
        · exact Or.inl (validKey_all_keyTail hk c hc)
        rcases List.mem_cons.mp hc with rfl | hc
        · exact Or.inr (Or.inr rfl)
        rcases List.mem_cons.mp hc with rfl | hc
        · exact Or.inr (Or.inr rfl)
        · simp at hc
      have h1 : scanDouble (withEscape (replace d o))
          (pre ++ "\x7b\x7b" ++ key ++ "\x7d\x7d" ++ post).toList
          = .ok (pre.toList ++ (("\x7b\x7b" ++ key ++ "\x7d\x7d").toList ++ post.toList)) := by
        rw [hT2, scanDouble_copy (withEscape (replace d o)) _ hpre]
        rw [scanDouble_cons_some (withEscape (replace d o)) '{' _
          (tryDouble_ph post.toList hk)]
        rw [show String.mk key.toList = key from rfl,
          show mkPh2 key.toList = "\x7b\x7b" ++ key ++ "\x7d\x7d" from rfl]
        rw [show withEscape (replace d o) ("\x7b\x7b" ++ key ++ "\x7d\x7d") key
            = (replace d o ("\x7b\x7b" ++ key ++ "\x7d\x7d") key).map htmlEscape from rfl]
        rw [replace_missing_ignore ("\x7b\x7b" ++ key ++ "\x7d\x7d") hi hmiss]
        dsimp only [Except.map]
        rw [hesc]
        rw [scanDouble_noBrace (withEscape (replace d o)) hpost]
      have hmid_shape : pre.toList ++ (("\x7b\x7b" ++ key ++ "\x7d\x7d").toList ++ post.toList)
          = pre.toList ++ '{' :: '{' :: (key.toList ++ '}' :: ('}' :: post.toList)) := by
        simp only [string_toList_append, toList_dlbrace, toList_drbrace,
          List.append_assoc, List.cons_append, List.nil_append]
      have h2 : scanSingle (replace d o)
          (pre.toList ++ '{' :: '{' :: (key.toList ++ '}' :: ('}' :: post.toList)))
          = .ok (pre.toList
              ++ ('{' :: (("\x7b" ++ key ++ "\x7d").toList ++ ('}' :: post.toList)))) := by
        rw [scanSingle_copy (replace d o) _ hpre]
        rw [scanSingle_cons_none (replace d o) '{' _ (trySingle_lbrace_nokey _)]
        rw [scanSingle_cons_some (replace d o) '{' _
          (trySingle_ph ('}' :: post.toList) hk)]
        rw [show String.mk key.toList = key from rfl,
          show mkPh1 key.toList = "\x7b" ++ key ++ "\x7d" from rfl]
        rw [replace_missing_ignore ("\x7b" ++ key ++ "\x7d") hi hmiss]
        dsimp only
        rw [scanSingle_cons_none (replace d o) '}' _
          (trySingle_not_lbrace (by decide))]
        rw [scanSingle_noBrace (replace d o) hpost]
        rfl
      refine (render_pipeline hd2 h1 (by rw [hmid_shape]; exact h2)).trans
        (congrArg Except.ok ?_)
      refine string_mk_eq_of_toList ?_
      simp only [string_toList_append, toList_lbrace, toList_rbrace,
        toList_dlbrace, toList_drbrace, List.append_assoc,
        List.singleton_append, List.cons_append, List.nil_append]

theorem ignore_missing_pass_through_witness :
    render "Hello {name}!" (.vobj []) ⟨true, none⟩ = .ok "Hello {name}!"
    ∧ render "Hello {{name}}!" (.vobj []) ⟨true, none⟩ = .ok "Hello {{name}}!" := by
  have h := (ignore_missing_pass_through (.vobj []) ⟨true, none⟩ rfl).2
    "name" "Hello " "!" rfl (by decide) (by decide) rfl
  exact ⟨h.1, h.2⟩

/-- C3: with `ignoreMissing` false (the default), rendering fails with a
`MissingValueError` as soon as a scanned placeholder's
resolved-and-transformed value is absent.  Precisely: (1) any
missing-value error the render surfaces names a key whose transformed
value really is absent; (2) if some key of the ESCAPED pass (scanned
first, in template order) is missing, the render fails with the first
such key; (3) otherwise the ESCAPED pass succeeds, and the render fails
with the first missing key of the RAW pass over its output — or, when no
scanned key is missing, succeeds.  Failure is the `Except.error`
outcome: no output string exists on that path. -/
theorem missing_value_fail_fast (t : String) (d : Value) (o : Options)
    (hi : o.ignoreMissing = false) :
    (∀ k, render t d o = .error (.missingValue k) →
        (transformedValue d o k).isAbsent = true)
  ∧ (∀ k, (keysOfDouble t.toList).find?
        (fun k2 => (transformedValue d o k2).isAbsent) = some k →
        render t d o = .error (.missingValue k))
  ∧ ((keysOfDouble t.toList).find?
        (fun k2 => (transformedValue d o k2).isAbsent) = none →
      ∃ mid, scanDouble (withEscape (replace d o)) t.toList = .ok mid
        ∧ (∀ k, (keysOfSingle mid).find?
              (fun k2 => (transformedValue d o k2).isAbsent) = some k →
              render t d o = .error (.missingValue k))
        ∧ ((keysOfSingle mid).find?
              (fun k2 => (transformedValue d o k2).isAbsent) = none →
            ∃ out, render t d o = .ok out)) := by
  have hrepl1 : ∀ p k,
      ((fun k2 => (transformedValue d o k2).isAbsent) k = true →
        replace d o p k = .error (.missingValue k))
      ∧ ((fun k2 => (transformedValue d o k2).isAbsent) k = false →
        ∃ v, replace d o p k = .ok v) :=
    fun p k => ⟨fun h => replace_missing_error p hi h,
      fun h => ⟨jsString (transformedValue d o k), replace_present p h⟩⟩
  have hrepl2 : ∀ p k,
      ((fun k2 => (transformedValue d o k2).isAbsent) k = true →
        withEscape (replace d o) p k = .error (.missingValue k))
      ∧ ((fun k2 => (transformedValue d o k2).isAbsent) k = false →
        ∃ v, withEscape (replace d o) p k = .ok v) := by
    intro p k
    constructor
    · intro h
      rw [withEscape, replace_missing_error p hi h]
      rfl
    · intro h
      exact ⟨htmlEscape (jsString (transformedValue d o k)),
        by rw [withEscape, replace_present p h]; rfl⟩
  have S1 : ∀ (cs : List Char) (k : String),
      (keysOfSingle cs).find? (fun k2 => (transformedValue d o k2).isAbsent)
        = some k →
      scanSingle (replace d o) cs = .error (.missingValue k) :=
    fun cs => (scan_find (fun h => trySingle_shrink h) mkPh1 (replace d o)
      (fun k2 => (transformedValue d o k2).isAbsent) hrepl1 cs.length cs le_rfl).1
  have S2 : ∀ (cs : List Char),
      (keysOfSingle cs).find? (fun k2 => (transformedValue d o k2).isAbsent)
        = none →
      ∃ out, scanSingle (replace d o) cs = .ok out :=
    fun cs => (scan_find (fun h => trySingle_shrink h) mkPh1 (replace d o)
      (fun k2 => (transformedValue d o k2).isAbsent) hrepl1 cs.length cs le_rfl).2
  have D1 : ∀ (cs : List Char) (k : String),
      (keysOfDouble cs).find? (fun k2 => (transformedValue d o k2).isAbsent)
        = some k →
      scanDouble (withEscape (replace d o)) cs = .error (.missingValue k) :=
    fun cs => (scan_find (fun h => tryDouble_shrink h) mkPh2
      (withEscape (replace d o))
      (fun k2 => (transformedValue d o k2).isAbsent) hrepl2 cs.length cs le_rfl).1
  have D2 : ∀ (cs : List Char),
      (keysOfDouble cs).find? (fun k2 => (transformedValue d o k2).isAbsent)
        = none →
      ∃ out, scanDouble (withEscape (replace d o)) cs = .ok out :=
    fun cs => (scan_find (fun h => tryDouble_shrink h) mkPh2
      (withEscape (replace d o))
      (fun k2 => (transformedValue d o k2).isAbsent) hrepl2 cs.length cs le_rfl).2
  have hS_err : ∀ (cs : List Char) (k : String),
      scanSingle (replace d o) cs = .error (.missingValue k) →
      (keysOfSingle cs).find? (fun k2 => (transformedValue d o k2).isAbsent)
        = some k := by
    intro cs k hk
    cases hf : (keysOfSingle cs).find?
        (fun k2 => (transformedValue d o k2).isAbsent) with
    | none =>
      obtain ⟨out, hout⟩ := S2 cs hf
      rw [hk] at hout
      cases hout
    | some k' =>
      have h1 := S1 cs k' hf
      have h2 := h1.symm.trans hk
      injection h2 with h3
      injection h3 with h4
      rw [h4]
  have hD_err : ∀ (cs : List Char) (k : String),
      scanDouble (withEscape (replace d o)) cs = .error (.missingValue k) →
      (keysOfDouble cs).find? (fun k2 => (transformedValue d o k2).isAbsent)
        = some k := by
    intro cs k hk
    cases hf : (keysOfDouble cs).find?
        (fun k2 => (transformedValue d o k2).isAbsent) with
    | none =>
      obtain ⟨out, hout⟩ := D2 cs hf
      rw [hk] at hout
      cases hout
    | some k' =>
      have h1 := D1 cs k' hf
      have h2 := h1.symm.trans hk
      injection h2 with h3
      injection h3 with h4
      rw [h4]
  refine ⟨?_, ?_, ?_⟩
  · intro k hrend
    cases hd : hasDouble t.toList with
    | false =>
      rw [render_noDouble hd] at hrend
      cases hs : scanSingle (replace d o) t.toList with
      | error e =>
        rw [hs] at hrend
        injection hrend with h2
        subst h2
        have h5 := List.find?_some (hS_err t.toList k hs)
        simpa using h5
      | ok out => rw [hs] at hrend; cases hrend
    | true =>
      rw [render_withDouble hd] at hrend
      cases hsd : scanDouble (withEscape (replace d o)) t.toList with
      | error e =>
        rw [hsd] at hrend
        injection hrend with h2
        subst h2
        have h5 := List.find?_some (hD_err t.toList k hsd)
        simpa using h5
      | ok mid =>
        rw [hsd] at hrend
        dsimp only at hrend
        cases hs : scanSingle (replace d o) mid with
        | error e =>
          rw [hs] at hrend
          injection hrend with h2
          subst h2
          have h5 := List.find?_some (hS_err mid k hs)
          simpa using h5
        | ok out => rw [hs] at hrend; cases hrend
  · intro k hk
    cases hd : hasDouble t.toList with
    | false =>
      have hkeys : keysOfDouble t.toList = [] := keys_noMatch t.toList hd
      rw [hkeys] at hk
      cases hk
    | true =>
      have herr := D1 t.toList k hk
      rw [render_withDouble hd, herr]
  · intro hnone
    obtain ⟨mid, hmid⟩ : ∃ mid,
        scanDouble (withEscape (replace d o)) t.toList = .ok mid := by
      cases hd : hasDouble t.toList with
      | false => exact ⟨t.toList, scanDouble_noMatch _ hd⟩
      | true => exact D2 t.toList hnone
    refine ⟨mid, hmid, ?_, ?_⟩
    · intro k hk
      have herr := S1 mid k hk
      cases hd : hasDouble t.toList with
      | false =>
        have hmt : mid = t.toList := by
          have h0 := scanDouble_noMatch (withEscape (replace d o)) hd
          have h1 := h0.symm.trans hmid
          injection h1 with h2
          exact h2.symm
        rw [render_noDouble hd, ← hmt, herr]
      | true =>
        rw [render_withDouble hd, hmid]
        dsimp only
        rw [herr]
    · intro hnone2
      obtain ⟨out, hout⟩ := S2 mid hnone2
      cases hd : hasDouble t.toList with
      | false =>
        have hmt : mid = t.toList := by
          have h0 := scanDouble_noMatch (withEscape (replace d o)) hd
          have h1 := h0.symm.trans hmid
          injection h1 with h2
          exact h2.symm
        refine ⟨String.mk out, ?_⟩
        rw [render_noDouble hd, ← hmt, hout]
      | true =>
        exact ⟨String.mk out, render_pipeline hd hmid hout⟩

theorem missing_value_fail_fast_witness :
    render "Hello {name}!" (.vobj []) ⟨false, none⟩
      = .error (.missingValue "name") := by
  have h := missing_value_fail_fast "Hello {name}!" (.vobj []) ⟨false, none⟩ rfl
  obtain ⟨mid, hmid, h1, h2⟩ := h.2.2 rfl
  have hmt : mid = "Hello {name}!".toList := by
    have h0 : scanDouble
        (withEscape (replace (.vobj []) ⟨false, none⟩)) "Hello {name}!".toList
        = .ok "Hello {name}!".toList := rfl
    have h3 := h0.symm.trans hmid
    injection h3 with h4
    exact h4.symm
  apply h1
  rw [hmt]
  rfl
